import Mathlib

/-!
Shallow embedding of `stylegan2/renderer.py` (StyleGAN2 generator forward
graph): the latent-mapping normalization, the synthesis ladder's style-index
wiring, style mixing, the truncation trick, the moving average of the mean
latent, and the EMA-of-weights sync.  Tensors are modelled per element /
per broadcast position (exact rational or real arithmetic in place of
float32); randomness is modelled by passing the drawn values explicitly.
-/

namespace StyleGAN2

/-- Modelled from the spec: `lerp` is imported from `commons.utils`, which is
not among the sources here.  Section 4.6 of the spec fixes its semantics:
`lerp(a, b, t) = t * b + (1 - t) * a`, i.e. `a + t * (b - a)`. -/
def lerp (a b t : ℚ) : ℚ := a + t * (b - a)

/-! ## Synthesis ladder style-index wiring (`Synthesis.call`, renderer.py 168-190) -/

/-- Embeds `Renderer.__init__` line 208: `self.n_broadcast = len(self.resolutions) * 2`. -/
def n_broadcast (resolutions : List ℕ) : ℕ := resolutions.length * 2

/-- Style positions consumed by the loop over the non-const synthesis blocks in
`Synthesis.call`: with `k` remaining blocks and the current `layer_index = i`,
a block iteration reads `w_broadcasted[:, i]`, `[:, i+1]`, `[:, i+2]` and then
advances `layer_index` by 2. -/
def blockStyleIndices : ℕ → ℕ → List ℕ
  | 0, _ => []
  | k + 1, i => i :: (i + 1) :: (i + 2) :: blockStyleIndices k (i + 2)

/-- All style positions read by `Synthesis.call` for a ladder of `n`
resolutions: the const block reads position 0, the first ToRGB position 1,
then the loop starts at `layer_index = 1` over the remaining `n - 1` blocks. -/
def synthesisStyleIndices (n : ℕ) : List ℕ :=
  0 :: 1 :: blockStyleIndices (n - 1) 1

lemma mem_blockStyleIndices_le {k i j : ℕ} (h : j ∈ blockStyleIndices k i) :
    j ≤ i + 2 * k := by
  induction k generalizing i with
  | zero => simp [blockStyleIndices] at h
  | succ k ih =>
    simp only [blockStyleIndices, List.mem_cons] at h
    rcases h with rfl | rfl | rfl | h
    · omega
    · omega
    · omega
    · have := ih h
      omega

lemma last_mem_blockStyleIndices {k i : ℕ} (h : 1 ≤ k) :
    i + 2 * k ∈ blockStyleIndices k i := by
  induction k generalizing i with
  | zero => omega
  | succ k ih =>
    simp only [blockStyleIndices, List.mem_cons]
    rcases Nat.eq_zero_or_pos k with rfl | hk
    · omega
    · right; right; right
      have hmem := ih (i := i + 2) hk
      have harith : i + 2 * (k + 1) = i + 2 + 2 * k := by omega
      rw [harith]
      exact hmem

/-! ## Truncation trick (`Renderer.__init__` 210-218, `Renderer.truncation_trick` 287-289) -/

/-- Embeds `Renderer.__init__` lines 211-218: start from an all-ones coefficient
per broadcast position; when `truncation_cutoff is None` multiply everything by
`truncation_psi`, otherwise loop over `range(n_broadcast)` and overwrite the
entries with `index < truncation_cutoff` by `truncation_psi`. -/
def truncation_coefs (n : ℕ) (psi : ℚ) (cutoff : Option ℕ) : List ℚ :=
  match cutoff with
  | none => (List.replicate n (1 : ℚ)).map (fun one => one * psi)
  | some c =>
      (List.range n).foldl
        (fun acc index => if index < c then acc.set index psi else acc)
        (List.replicate n (1 : ℚ))

/-- Embeds `Renderer.truncation_trick` lines 287-289: positionwise
`lerp(self.w_avg, w_broadcasted, self.truncation_coefs)`. -/
def truncation_trick (n : ℕ) (psi : ℚ) (cutoff : Option ℕ) (w_avg : ℚ)
    (w_broadcasted : List ℚ) : List ℚ :=
  List.zipWith (fun coef wi => lerp w_avg wi coef)
    (truncation_coefs n psi cutoff) w_broadcasted

lemma length_foldl_set (c n : ℕ) (psi : ℚ) (L : List ℚ) :
    ((List.range n).foldl
        (fun acc index => if index < c then acc.set index psi else acc) L).length
      = L.length := by
  induction n with
  | zero => simp
  | succ n ih =>
    rw [List.range_succ, List.foldl_append]
    simp only [List.foldl_cons, List.foldl_nil]
    by_cases hc : n < c
    · simp [hc, List.length_set, ih]
    · simp [hc, ih]

lemma foldl_set_getElem? (c n : ℕ) (psi : ℚ) (L : List ℚ) (i : ℕ) :
    ((List.range n).foldl
        (fun acc index => if index < c then acc.set index psi else acc) L)[i]?
      = if i < n ∧ i < c ∧ i < L.length then some psi else L[i]? := by
  induction n with
  | zero => simp
  | succ n ih =>
    rw [List.range_succ, List.foldl_append]
    simp only [List.foldl_cons, List.foldl_nil]
    by_cases hc : n < c
    · rw [if_pos hc, List.getElem?_set, length_foldl_set, ih]
      by_cases hni : n = i
      · subst hni
        by_cases hlen : n < L.length
        · simp [hlen, hc]
        · have hnone : L[n]? = none := List.getElem?_eq_none (by omega)
          simp [hlen, hnone]
      · have hiff : (i < n ∧ i < c ∧ i < L.length)
            ↔ (i < n + 1 ∧ i < c ∧ i < L.length) := by omega
        simp only [hni, if_false, hiff]
    · rw [if_neg hc, ih]
      have hiff : (i < n ∧ i < c ∧ i < L.length)
          ↔ (i < n + 1 ∧ i < c ∧ i < L.length) := by omega
      simp only [hiff]

/-- The truncation coefficient at any in-range broadcast position `i`:
`psi` when the cutoff is unset; otherwise `psi` for `i < cutoff` and `1` else. -/
lemma truncation_coefs_getElem? (n : ℕ) (psi : ℚ) (cutoff : Option ℕ) (i : ℕ)
    (hi : i < n) :
    (truncation_coefs n psi cutoff)[i]? =
      some (match cutoff with
            | none => psi
            | some c => if i < c then psi else 1) := by
  cases cutoff with
  | none => simp [truncation_coefs, List.getElem?_map, List.getElem?_replicate, hi]
  | some c =>
    rw [truncation_coefs, foldl_set_getElem?]
    by_cases hic : i < c
    · simp [hi, hic, List.length_replicate]
    · simp [hi, hic, List.getElem?_replicate]

/-! ## Style mixing (`Renderer.style_mixing_regularization`, renderer.py 269-285) -/

/-- Embeds the `tf.where` select of lines 281-284 for one sample row:
`mixing_layer_indices = arange(n_broadcast)` (line 210) is compared with the
cutoff; positions `i < cutoff` take `w_broadcasted1`, the rest take
`w_broadcasted2`. -/
def style_mix (n cutoff : ℕ) (w1 w2 : List ℚ) : List ℚ :=
  List.zipWith (fun i pq => if i < cutoff then pq.1 else pq.2)
    (List.range n) (w1.zip w2)

/-- Embeds `Renderer.style_mixing_regularization` lines 269-285 with the
random draws passed explicitly: `u` is the `tf.random.uniform([], 0.0, 1.0)`
draw and `c` the `tf.random.uniform([], 1, n_broadcast, int32)` draw (so a
caller-side guarantee is `1 ≤ c < n`).  If `u < style_mixing_prob` the cutoff
is `c`, otherwise `n_broadcast`; the select is applied to each batch row. -/
def style_mixing_regularization (u prob : ℚ) (c n : ℕ)
    (wB1 wB2 : List (List ℚ)) : List (List ℚ) :=
  let cutoff := if u < prob then c else n
  List.zipWith (fun r1 r2 => style_mix n cutoff r1 r2) wB1 wB2

/-! ## Moving average of w (`Renderer.update_moving_average_of_w`, renderer.py 252-258) -/

/-- The batch mean `tf.reduce_mean(..., axis=0)` of a list of scalars. -/
def batchMean (l : List ℚ) : ℚ := l.sum / l.length

/-- Embeds `Renderer.update_moving_average_of_w` lines 252-258: the new value
assigned to `w_avg` is `lerp(mean of w_broadcasted[:, 0], w_avg, w_ema_decay)`.
Each batch row contributes its position-0 entry (`List.headI`). -/
def update_moving_average_of_w (decay w_avg : ℚ) (wB : List (List ℚ)) : ℚ :=
  lerp (batchMean (wB.map List.headI)) w_avg decay

/-! ## Top-level forward call (`Renderer.call`, renderer.py 291-303) -/

/-- The Python `training` keyword of `Renderer.call`: it defaults to `None`
and is tested for truthiness (`if training:` / `if not training:`). -/
inductive PyFlag where
  | noneFlag : PyFlag
  | boolFlag (b : Bool) : PyFlag

/-- Python truthiness of the `training` flag: `None` is falsy. -/
def truthy : PyFlag → Bool
  | .noneFlag => false
  | .boolFlag b => b

/-- Embeds `Renderer.call` lines 291-303.  `mapping` abstracts `self.g_mapping`
(it returns the broadcast style tensor, one row per batch sample), `synthesis`
abstracts `self.synthesis`, and the style-mixing random draws `u`, `c` and the
second conditioning draw `x2` are passed explicitly.  The result is the pair
(value of `w_avg` after the call, synthesized output). -/
def rendererCall {X Y : Type} (n : ℕ) (decay psi : ℚ) (cutoff : Option ℕ)
    (mapping : X → List (List ℚ)) (synthesis : List (List ℚ) → Y)
    (prob u : ℚ) (c : ℕ) (x2 : X)
    (training : PyFlag) (w_avg : ℚ) (x : X) : ℚ × Y :=
  let wB0 := mapping x
  let st1 :=
    if truthy training then
      (update_moving_average_of_w decay w_avg wB0,
        style_mixing_regularization u prob c n wB0 (mapping x2))
    else (w_avg, wB0)
  let wB2 :=
    if truthy training = false then
      st1.2.map (truncation_trick n psi cutoff st1.1)
    else st1.2
  (st1.1, synthesis wB2)

/-! ## EMA of weights (`Renderer.set_as_moving_average_of`, renderer.py 227-250) -/

/-- A network parameter: a scoped name, a shape, and its value (one scalar
standing elementwise for the whole tensor, since `lerp` and `assign` act
elementwise).  A scoped TF variable name such as `"G/mapping/w"` is
represented by its list of `/`-separated components `["G", "mapping", "w"]`;
since the components of a split never contain `/`, `'/'.join` is injective on
them and the representation is faithful. -/
structure Param where
  name : List String
  shape : List ℕ
  value : ℚ
deriving DecidableEq

/-- Embeds `split_first_name` (renderer.py 228-231): `name.split('/')`, drop
the first (top-level scope) component, rejoin with `'/'.join` — on the
component-list representation this is exactly dropping the first component. -/
def split_first_name (n : List String) : List String := n.drop 1

/-- Embeds the inner `for sw in src_net...: if cw_name == sw_name: assert;
assign; break` loop of `set_as_moving_average_of` for one target parameter
`cw`: scan the source parameters in order, stop at the first whose stripped
name matches; a shape mismatch there is the failed `assert` (`none`); no match
leaves `cw` unchanged. -/
def syncLoop (beta : ℚ) (cw : Param) : List Param → Option Param
  | [] => some cw
  | sw :: rest =>
      if split_first_name sw.name = split_first_name cw.name then
        if sw.shape = cw.shape then
          some { cw with value := lerp sw.value cw.value beta }
        else none
      else syncLoop beta cw rest

/-- Embeds `Renderer.set_as_moving_average_of` lines 227-250: every trainable
target weight is synced against the source's trainable weights with decay
`beta`, every non-trainable one against the source's non-trainable weights
with decay `beta_nontrainable`; `none` models a failed shape `assert`. -/
def set_as_moving_average_of (beta beta_nontrainable : ℚ)
    (srcTrainable srcNontrainable tgtTrainable tgtNontrainable : List Param) :
    Option (List Param × List Param) := do
  let newT ← tgtTrainable.mapM (fun cw => syncLoop beta cw srcTrainable)
  let newNT ← tgtNontrainable.mapM
    (fun cw => syncLoop beta_nontrainable cw srcNontrainable)
  return (newT, newNT)

/-! ## Construction checks (`SynthesisConstBlock.__init__` 66-73, `Synthesis.__init__` 143-166) -/

/-- Embeds `SynthesisConstBlock.__init__` lines 66-73: the only check is the
statement `assert res == 4`. -/
def synthesisConstBlockInit (res : ℕ) : Option Unit :=
  if res = 4 then some () else none

/-- Embeds `Synthesis.__init__` lines 143-166: it reads `resolutions[0]` and
`featuremaps[0]` (an `IndexError` if either list is empty), builds the const
block (whose `assert res == 4` may fire), then loops over
`zip(resolutions[1:], featuremaps[1:])` building `SynthesisBlock`s, `ToRGB`s
and `Upscale2D`s, none of whose constructors performs any check on the
resolution values. -/
def synthesisInit (resolutions featuremaps : List ℕ) : Option Unit :=
  match resolutions, featuremaps with
  | res :: _, _ :: _ => synthesisConstBlockInit res
  | _, _ => none

/-! ## Mapping normalization (`Mapping.norm`, renderer.py 38) -/

/-- The mean of the squared entries, `tf.reduce_mean(tf.square(x), axis=1)`,
for one sample vector. -/
noncomputable def meanSq (v : List ℝ) : ℝ := (v.map (fun x => x ^ 2)).sum / v.length

/-- Embeds the `self.norm` lambda of `Mapping` (renderer.py line 38):
`x * tf.math.rsqrt(tf.reduce_mean(tf.square(x), axis=1, keepdims=True) + 1e-8)`
for one sample vector, in exact real arithmetic. -/
noncomputable def Mapping.norm (v : List ℝ) : List ℝ :=
  v.map (fun x => x * (Real.sqrt (meanSq v + 1 / 10 ^ 8))⁻¹)

/-! ## Theorems -/

/-- C1: for every valid (nonempty) resolution list, `n_broadcast` equals
`2 * len(resolutions)`; the synthesis ladder's style-index cursor — positions
0 and 1 for the const block and first ToRGB, then `[i, i+1, i+2]` with `i`
starting at 1 and advancing by 2 per subsequent resolution — accesses only
indices in `[0, n_broadcast)`, and the highest index consumed is exactly
`n_broadcast - 1`. -/
theorem C1_ladder_indices (resolutions : List ℕ) (h : resolutions ≠ []) :
    n_broadcast resolutions = 2 * resolutions.length ∧
    (∀ j ∈ synthesisStyleIndices resolutions.length, j < n_broadcast resolutions) ∧
    n_broadcast resolutions - 1 ∈ synthesisStyleIndices resolutions.length := by
  have hlen : 1 ≤ resolutions.length := List.length_pos.mpr h
  refine ⟨by simp [n_broadcast, Nat.mul_comm], ?_, ?_⟩
  · intro j hj
    simp only [synthesisStyleIndices, List.mem_cons] at hj
    simp only [n_broadcast]
    rcases hj with rfl | rfl | hj
    · omega
    · omega
    · have := mem_blockStyleIndices_le hj
      omega
  · simp only [synthesisStyleIndices, List.mem_cons, n_broadcast]
    rcases eq_or_lt_of_le hlen with h1 | h2
    · right; left
      omega
    · right; right
      have harith : resolutions.length * 2 - 1 = 1 + 2 * (resolutions.length - 1) := by
        omega
      rw [harith]
      exact last_mem_blockStyleIndices (by omega)

/-- Witness for C1 at the concrete ladder `[4, 8, 16]`. -/
theorem C1_ladder_indices_witness :
    n_broadcast [4, 8, 16] = 2 * ([4, 8, 16] : List ℕ).length ∧
    n_broadcast [4, 8, 16] - 1 ∈ synthesisStyleIndices ([4, 8, 16] : List ℕ).length :=
  ⟨(C1_ladder_indices [4, 8, 16] (by decide)).1,
   (C1_ladder_indices [4, 8, 16] (by decide)).2.2⟩

/-- C2: at each broadcast position `i`, the truncation trick returns
`w_avg + coef[i] * (w_broadcast[i] - w_avg)`, with `coef[i] = truncation_psi`
when the cutoff is unset or `i < truncation_cutoff`, and `coef[i] = 1`
otherwise. -/
theorem C2_truncation_formula (n : ℕ) (psi : ℚ) (cutoff : Option ℕ)
    (w_avg wi : ℚ) (w : List ℚ) (hw : w.length = n) (i : ℕ)
    (hwi : w[i]? = some wi) :
    (truncation_trick n psi cutoff w_avg w)[i]? =
      some (w_avg +
        (match cutoff with
         | none => psi
         | some c => if i < c then psi else 1) * (wi - w_avg)) := by
  have hiw : i < w.length := by
    by_contra hcon
    push_neg at hcon
    rw [List.getElem?_eq_none hcon] at hwi
    exact Option.noConfusion hwi
  rw [truncation_trick, List.getElem?_zipWith,
    truncation_coefs_getElem? n psi cutoff i (hw ▸ hiw), hwi]
  cases cutoff with
  | none => simp [lerp]
  | some c => by_cases hic : i < c <;> simp [hic, lerp]

/-- Witness for C2 at `n = 4`, `psi = 1/2`, `cutoff = some 2`, `w_avg = 3`,
`w = [5, 7, 9, 11]`, position `i = 2` (past the cutoff, so the coefficient
is 1). -/
theorem C2_truncation_formula_witness :
    (truncation_trick 4 (1/2) (some 2) 3 [5, 7, 9, 11])[2]? =
      some (3 + (if 2 < 2 then (1 : ℚ)/2 else 1) * (9 - 3)) :=
  C2_truncation_formula 4 (1/2) (some 2) 3 9 [5, 7, 9, 11] (by rfl) 2 (by rfl)

lemma exists_getElem?_eq_some {α : Type} (l : List α) (i : ℕ)
    (h : i < l.length) : ∃ a, l[i]? = some a :=
  ⟨l.get ⟨i, h⟩, List.getElem?_eq_some.mpr ⟨h, rfl⟩⟩

lemma style_mix_getElem? (n cutoff : ℕ) (w1 w2 : List ℚ)
    (h1 : w1.length = n) (h2 : w2.length = n) (i : ℕ) :
    (style_mix n cutoff w1 w2)[i]? = if i < cutoff then w1[i]? else w2[i]? := by
  rw [style_mix, List.getElem?_zipWith, List.zip_eq_zipWith, List.getElem?_zipWith]
  by_cases hin : i < n
  · obtain ⟨a, ha⟩ := exists_getElem?_eq_some w1 i (by omega)
    obtain ⟨b, hb⟩ := exists_getElem?_eq_some w2 i (by omega)
    rw [List.getElem?_range hin, ha, hb]
    by_cases hic : i < cutoff <;> simp [hic, ha, hb]
  · have hr : (List.range n)[i]? = none :=
      List.getElem?_eq_none (by simpa using Nat.le_of_not_lt hin)
    have h1n : w1[i]? = none := List.getElem?_eq_none (by omega)
    have h2n : w2[i]? = none := List.getElem?_eq_none (by omega)
    rw [hr, h1n, h2n]
    simp

lemma style_mix_self (n : ℕ) (w1 w2 : List ℚ)
    (h1 : w1.length = n) (h2 : w2.length = n) :
    style_mix n n w1 w2 = w1 := by
  apply List.ext_getElem?
  intro i
  rw [style_mix_getElem? n n w1 w2 h1 h2]
  by_cases hin : i < n
  · simp [hin]
  · have e1 : w1[i]? = none := List.getElem?_eq_none (by omega)
    have e2 : w2[i]? = none := List.getElem?_eq_none (by omega)
    simp [hin, e1, e2]

/-- C3: style mixing with `style_mixing_prob = 0` returns the first broadcast
style tensor unchanged for every draw `u` of `tf.random.uniform([], 0, 1)`;
with `style_mixing_prob = 1` and a cutoff draw of 1, each batch row keeps
position 0 of the first tensor and takes positions `1..n_broadcast-1` from the
second tensor. -/
theorem C3_style_mixing (u : ℚ) (c n : ℕ) (wB1 wB2 : List (List ℚ))
    (hlen : wB1.length = wB2.length)
    (h1 : ∀ r ∈ wB1, r.length = n) (h2 : ∀ r ∈ wB2, r.length = n)
    (hu0 : 0 ≤ u) (hu1 : u < 1) :
    style_mixing_regularization u 0 c n wB1 wB2 = wB1 ∧
    (∀ (j : ℕ) (r1 r2 : List ℚ), wB1[j]? = some r1 → wB2[j]? = some r2 →
      ∃ r : List ℚ, (style_mixing_regularization u 1 1 n wB1 wB2)[j]? = some r ∧
        r[0]? = r1[0]? ∧ ∀ i, 1 ≤ i → i < n → r[i]? = r2[i]?) := by
  constructor
  · have hnot : ¬ u < 0 := not_lt.mpr hu0
    simp only [style_mixing_regularization, hnot, if_false]
    apply List.ext_getElem?
    intro j
    rw [List.getElem?_zipWith]
    cases hj1 : wB1[j]? with
    | none =>
      have hlen1 : wB1.length ≤ j := by
        by_contra hcon
        push_neg at hcon
        rw [(List.getElem?_eq_some.mpr ⟨hcon, rfl⟩ : wB1[j]? = some _)] at hj1
        exact Option.noConfusion hj1
      rw [List.getElem?_eq_none (by omega : wB2.length ≤ j)]
    | some r1 =>
      obtain ⟨hlt1, hget1⟩ := List.getElem?_eq_some.mp hj1
      obtain ⟨r2, hj2⟩ := exists_getElem?_eq_some wB2 j (by omega)
      rw [hj2]
      have hr1 : r1.length = n := h1 r1 (hget1 ▸ List.getElem_mem hlt1)
      have hr2 : r2.length = n := by
        obtain ⟨hlt2, hget2⟩ := List.getElem?_eq_some.mp hj2
        exact h2 r2 (hget2 ▸ List.getElem_mem hlt2)
      simp [style_mix_self n r1 r2 hr1 hr2]
  · intro j r1 r2 hj1 hj2
    simp only [style_mixing_regularization, hu1, if_true]
    refine ⟨style_mix n 1 r1 r2, ?_, ?_, ?_⟩
    · rw [List.getElem?_zipWith, hj1, hj2]
    · have hr1 : r1.length = n := by
        obtain ⟨hlt1, hget1⟩ := List.getElem?_eq_some.mp hj1
        exact h1 r1 (hget1 ▸ List.getElem_mem hlt1)
      have hr2 : r2.length = n := by
        obtain ⟨hlt2, hget2⟩ := List.getElem?_eq_some.mp hj2
        exact h2 r2 (hget2 ▸ List.getElem_mem hlt2)
      rw [style_mix_getElem? n 1 r1 r2 hr1 hr2]
      simp
    · intro i hi1 hin
      have hr1 : r1.length = n := by
        obtain ⟨hlt1, hget1⟩ := List.getElem?_eq_some.mp hj1
        exact h1 r1 (hget1 ▸ List.getElem_mem hlt1)
      have hr2 : r2.length = n := by
        obtain ⟨hlt2, hget2⟩ := List.getElem?_eq_some.mp hj2
        exact h2 r2 (hget2 ▸ List.getElem_mem hlt2)
      rw [style_mix_getElem? n 1 r1 r2 hr1 hr2]
      simp [Nat.not_lt.mpr hi1]

/-- Witness for C3 at `u = 1/2`, `n = 2`, batch `wB1 = [[3, 4]]`,
`wB2 = [[5, 6]]`. -/
theorem C3_style_mixing_witness :
    style_mixing_regularization (1/2) 0 1 2 [[3, 4]] [[5, 6]] = [[3, 4]] ∧
    (∃ r : List ℚ, (style_mixing_regularization (1/2) 1 1 2 [[3, 4]] [[5, 6]])[0]?
        = some r ∧ r[0]? = ([(3 : ℚ), 4])[0]? ∧
        ∀ i, 1 ≤ i → i < 2 → r[i]? = ([(5 : ℚ), 6])[i]?) := by
  have h := C3_style_mixing (1/2) 1 2 [[3, 4]] [[5, 6]] (by decide)
    (by intro r hr; simp at hr; simp [hr]) (by intro r hr; simp at hr; simp [hr])
    (by norm_num) (by norm_num)
  exact ⟨h.1, h.2 0 [3, 4] [5, 6] (by rfl) (by rfl)⟩

/-- C10: in a training-mode forward pass, for every mixing draw `(u, c)` with
`c` drawn from `[1, n_broadcast)`, the drawn mixing cutoff is at least 1, and
the style row reaching the synthesis network (here observed by instantiating
the abstract synthesis with `id`) agrees at broadcast position 0 with the
unmixed mapping output of the original conditioning input. -/
theorem C10_position0_unmixed {X : Type} (n : ℕ) (decay psi : ℚ)
    (cutoff : Option ℕ) (mapping : X → List (List ℚ)) (prob u : ℚ) (c : ℕ)
    (x2 x : X) (w_avg : ℚ) (training : PyFlag)
    (htr : truthy training = true) (hc : 1 ≤ c) (hn : 1 ≤ n)
    (hlen : (mapping x).length = (mapping x2).length)
    (h1 : ∀ r ∈ mapping x, r.length = n) (h2 : ∀ r ∈ mapping x2, r.length = n)
    (j : ℕ) (r1 : List ℚ) (hj : (mapping x)[j]? = some r1) :
    1 ≤ (if u < prob then c else n) ∧
    (∃ r : List ℚ,
      ((rendererCall n decay psi cutoff mapping id prob u c x2 training w_avg x).2)[j]?
        = some r ∧ r[0]? = r1[0]?) := by
  have hcut : 1 ≤ (if u < prob then c else n) := by
    by_cases hup : u < prob <;> simp [hup, hc, hn]
  refine ⟨hcut, ?_⟩
  obtain ⟨hlt1, hget1⟩ := List.getElem?_eq_some.mp hj
  obtain ⟨r2, hj2⟩ := exists_getElem?_eq_some (mapping x2) j (by omega)
  have hr1 : r1.length = n := h1 r1 (hget1 ▸ List.getElem_mem hlt1)
  have hr2 : r2.length = n := by
    obtain ⟨hlt2, hget2⟩ := List.getElem?_eq_some.mp hj2
    exact h2 r2 (hget2 ▸ List.getElem_mem hlt2)
  refine ⟨style_mix n (if u < prob then c else n) r1 r2, ?_, ?_⟩
  · simp only [rendererCall, htr, if_true, Bool.true_eq_false, if_false, id]
    rw [style_mixing_regularization, List.getElem?_zipWith, hj, hj2]
  · rw [style_mix_getElem? n _ r1 r2 hr1 hr2, if_pos (by omega)]

/-- Witness for C10 at a concrete training call: `n = 2`, batch size 1,
mapping output `[[3, 4]]` for the real input and `[[5, 6]]` for the redrawn
one. -/
theorem C10_position0_unmixed_witness :
    1 ≤ (if (1 : ℚ)/2 < 9/10 then 1 else 2) ∧
    (∃ r : List ℚ,
      ((rendererCall 2 (1/2) (7/10) none
          (fun b : Bool => if b then [[3, 4]] else [[5, 6]]) id
          (9/10) (1/2) 1 false (PyFlag.boolFlag true) 0 true).2)[0]?
        = some r ∧ r[0]? = ([(3 : ℚ), 4])[0]?) :=
  C10_position0_unmixed 2 (1/2) (7/10) none
    (fun b : Bool => if b then [[3, 4]] else [[5, 6]]) (9/10) (1/2) 1
    false true 0 (PyFlag.boolFlag true) rfl (by norm_num) (by norm_num)
    (by simp) (by intro r hr; simp at hr; simp [hr])
    (by intro r hr; simp at hr; simp [hr]) 0 [3, 4] (by simp)

/-- C4: a training-mode forward call updates `w_avg` to
`w_ema_decay * w_avg + (1 - w_ema_decay) * (batch mean of the unmixed
position-0 style code)` — the mean is taken over `mapping x`, i.e. before
style mixing — while an inference-mode call leaves `w_avg` unchanged. -/
theorem C4_w_avg_update {X Y : Type} (n : ℕ) (decay psi : ℚ)
    (cutoff : Option ℕ) (mapping : X → List (List ℚ))
    (synthesis : List (List ℚ) → Y) (prob u : ℚ) (c : ℕ) (x2 x : X)
    (w_avg : ℚ) (training : PyFlag) :
    (truthy training = true →
      (rendererCall n decay psi cutoff mapping synthesis prob u c x2
          training w_avg x).1
        = decay * w_avg + (1 - decay) * batchMean ((mapping x).map List.headI)) ∧
    (truthy training = false →
      (rendererCall n decay psi cutoff mapping synthesis prob u c x2
          training w_avg x).1 = w_avg) := by
  constructor
  · intro htr
    simp only [rendererCall, htr, if_true, update_moving_average_of_w, lerp]
    ring
  · intro htr
    simp [rendererCall, htr]

/-- Witness for C4: a concrete training call with `decay = 1/2`, `w_avg = 10`
and mapping output rows starting with 2 and 4, and the matching inference
call. -/
theorem C4_w_avg_update_witness :
    ((rendererCall 1 (1/2) (7/10) none (fun _ : Unit => [[2], [4]])
        (fun _ => ()) (9/10) (1/2) 1 () (PyFlag.boolFlag true) 10 ()).1
      = (1 : ℚ)/2 * 10 +
        (1 - 1/2) * batchMean (([[2], [4]] : List (List ℚ)).map List.headI)) ∧
    ((rendererCall 1 (1/2) (7/10) none (fun _ : Unit => [[2], [4]])
        (fun _ => ()) (9/10) (1/2) 1 () (PyFlag.boolFlag false) 10 ()).1
      = 10) :=
  ⟨(C4_w_avg_update 1 (1/2) (7/10) none (fun _ : Unit => [[2], [4]])
      (fun _ => ()) (9/10) (1/2) 1 () () 10 (PyFlag.boolFlag true)).1 rfl,
   (C4_w_avg_update 1 (1/2) (7/10) none (fun _ : Unit => [[2], [4]])
      (fun _ => ()) (9/10) (1/2) 1 () () 10 (PyFlag.boolFlag false)).2 rfl⟩

/-- C9: a forward call whose `training` flag is `None` (the default) or any
other falsy value behaves exactly as the inference-mode call
`training = False`: the truncation trick is applied to the mapping output,
no style mixing occurs, and `w_avg` is returned unchanged. -/
theorem C9_falsy_training_is_inference {X Y : Type} (n : ℕ) (decay psi : ℚ)
    (cutoff : Option ℕ) (mapping : X → List (List ℚ))
    (synthesis : List (List ℚ) → Y) (prob u : ℚ) (c : ℕ) (x2 x : X)
    (w_avg : ℚ) (training : PyFlag) (htr : truthy training = false) :
    rendererCall n decay psi cutoff mapping synthesis prob u c x2
        training w_avg x
      = (w_avg,
          synthesis ((mapping x).map (truncation_trick n psi cutoff w_avg))) ∧
    rendererCall n decay psi cutoff mapping synthesis prob u c x2
        training w_avg x
      = rendererCall n decay psi cutoff mapping synthesis prob u c x2
          (PyFlag.boolFlag false) w_avg x := by
  constructor
  · simp [rendererCall, htr]
  · have hb : truthy (PyFlag.boolFlag false) = false := rfl
    simp [rendererCall, htr, hb]

/-- Witness for C9 with the flag omitted (Python `None`). -/
theorem C9_falsy_training_is_inference_witness :
    rendererCall 1 (1/2) (7/10) none (fun _ : Unit => [[2], [4]])
        (fun l => l) (9/10) (1/2) 1 () PyFlag.noneFlag 10 ()
      = (10, ([[2], [4]] : List (List ℚ)).map (truncation_trick 1 (7/10) none 10)) ∧
    rendererCall 1 (1/2) (7/10) none (fun _ : Unit => [[2], [4]])
        (fun l => l) (9/10) (1/2) 1 () PyFlag.noneFlag 10 ()
      = rendererCall 1 (1/2) (7/10) none (fun _ : Unit => [[2], [4]])
          (fun l => l) (9/10) (1/2) 1 () (PyFlag.boolFlag false) 10 () :=
  C9_falsy_training_is_inference 1 (1/2) (7/10) none
    (fun _ : Unit => [[2], [4]]) (fun l => l) (9/10) (1/2) 1 () ()
    10 PyFlag.noneFlag rfl

/-- What beta = 0 produces on one target parameter: the first source parameter
with the same stripped name overwrites the value; no match leaves it alone. -/
def emaOverwrite (src : List Param) (cw : Param) : Param :=
  match src.find?
      (fun sw => split_first_name sw.name == split_first_name cw.name) with
  | some sw => { cw with value := sw.value }
  | none => cw

lemma syncLoop_eq_find (beta : ℚ) (cw : Param) (src : List Param) :
    syncLoop beta cw src =
      match src.find?
          (fun sw => split_first_name sw.name == split_first_name cw.name) with
      | none => some cw
      | some sw =>
          if sw.shape = cw.shape then
            some { cw with value := lerp sw.value cw.value beta }
          else none := by
  induction src with
  | nil => rfl
  | cons sw rest ih =>
    by_cases h : split_first_name sw.name = split_first_name cw.name
    · simp [syncLoop, List.find?_cons, h]
    · simp only [syncLoop, List.find?_cons, if_neg h, ih]
      rw [beq_eq_false_iff_ne.mpr h]

lemma mapM_eq_some_map {α β : Type} (f : α → Option β) (g : α → β)
    (l : List α) (h : ∀ a ∈ l, f a = some (g a)) :
    l.mapM f = some (l.map g) := by
  induction l with
  | nil => rfl
  | cons a l ih =>
    rw [List.mapM_cons, h a (List.mem_cons_self a l),
      ih (fun b hb => h b (List.mem_cons_of_mem a hb))]
    rfl

lemma mapM_congr {α β : Type} (f g : α → Option β) (l : List α)
    (h : ∀ a ∈ l, f a = g a) : l.mapM f = l.mapM g := by
  induction l with
  | nil => rfl
  | cons a l ih =>
    rw [List.mapM_cons, List.mapM_cons, h a (List.mem_cons_self a l),
      ih (fun b hb => h b (List.mem_cons_of_mem a hb))]

/-- C5: running the EMA-of-weights sync with decay 0 (for both the trainable
and the non-trainable pass) makes every matched target parameter take exactly
the value of the first identically-named source parameter, leaving unmatched
parameters alone; running it with decay 1 leaves every target parameter
unchanged.  The shape hypotheses say the matched names agree in shape, i.e.
the `assert` does not fire. -/
theorem C5_ema_endpoints (srcT srcNT tgtT tgtNT : List Param)
    (hT : ∀ cw ∈ tgtT, ∀ sw, srcT.find?
        (fun sw => split_first_name sw.name == split_first_name cw.name)
          = some sw → sw.shape = cw.shape)
    (hNT : ∀ cw ∈ tgtNT, ∀ sw, srcNT.find?
        (fun sw => split_first_name sw.name == split_first_name cw.name)
          = some sw → sw.shape = cw.shape) :
    set_as_moving_average_of 0 0 srcT srcNT tgtT tgtNT
      = some (tgtT.map (emaOverwrite srcT), tgtNT.map (emaOverwrite srcNT)) ∧
    set_as_moving_average_of 1 1 srcT srcNT tgtT tgtNT
      = some (tgtT, tgtNT) := by
  have hzero : ∀ (src tgt : List Param)
      (h : ∀ cw ∈ tgt, ∀ sw, src.find?
          (fun sw => split_first_name sw.name == split_first_name cw.name)
            = some sw → sw.shape = cw.shape),
      tgt.mapM (fun cw => syncLoop 0 cw src) = some (tgt.map (emaOverwrite src)) := by
    intro src tgt h
    apply mapM_eq_some_map
    intro cw hcw
    rw [syncLoop_eq_find, emaOverwrite]
    cases hfind : src.find?
        (fun sw => split_first_name sw.name == split_first_name cw.name) with
    | none => rfl
    | some sw =>
      have hsh := h cw hcw sw hfind
      simp [hsh, lerp]
  have hone : ∀ (src tgt : List Param)
      (h : ∀ cw ∈ tgt, ∀ sw, src.find?
          (fun sw => split_first_name sw.name == split_first_name cw.name)
            = some sw → sw.shape = cw.shape),
      tgt.mapM (fun cw => syncLoop 1 cw src) = some (tgt.map id) := by
    intro src tgt h
    apply mapM_eq_some_map
    intro cw hcw
    rw [syncLoop_eq_find]
    cases hfind : src.find?
        (fun sw => split_first_name sw.name == split_first_name cw.name) with
    | none => rfl
    | some sw =>
      have hsh := h cw hcw sw hfind
      have hval : lerp sw.value cw.value 1 = cw.value := by
        rw [lerp]; ring
      simp [hsh, hval]
  constructor
  · simp only [set_as_moving_average_of, hzero srcT tgtT hT, hzero srcNT tgtNT hNT]
    rfl
  · simp only [set_as_moving_average_of, hone srcT tgtT hT, hone srcNT tgtNT hNT,
      List.map_id]
    rfl

/-- Witness for C5 at a concrete pair of two-parameter networks: the source
scope is `Gs`, the target scope `G`, the target's `mapping/w` matches the
source's and its `extra/b` is unmatched. -/
theorem C5_ema_endpoints_witness :
    set_as_moving_average_of 0 0
        [⟨["Gs", "mapping", "w"], [2, 3], 5⟩] [⟨["Gs", "w_avg"], [8], 7⟩]
        [⟨["G", "mapping", "w"], [2, 3], 9⟩, ⟨["G", "extra", "b"], [1], 11⟩]
        [⟨["G", "w_avg"], [8], 13⟩]
      = some ([⟨["G", "mapping", "w"], [2, 3], 5⟩, ⟨["G", "extra", "b"], [1], 11⟩],
              [⟨["G", "w_avg"], [8], 7⟩]) ∧
    set_as_moving_average_of 1 1
        [⟨["Gs", "mapping", "w"], [2, 3], 5⟩] [⟨["Gs", "w_avg"], [8], 7⟩]
        [⟨["G", "mapping", "w"], [2, 3], 9⟩, ⟨["G", "extra", "b"], [1], 11⟩]
        [⟨["G", "w_avg"], [8], 13⟩]
      = some ([⟨["G", "mapping", "w"], [2, 3], 9⟩, ⟨["G", "extra", "b"], [1], 11⟩],
              [⟨["G", "w_avg"], [8], 13⟩]) := by
  have h := C5_ema_endpoints
    [⟨["Gs", "mapping", "w"], [2, 3], 5⟩] [⟨["Gs", "w_avg"], [8], 7⟩]
    [⟨["G", "mapping", "w"], [2, 3], 9⟩, ⟨["G", "extra", "b"], [1], 11⟩]
    [⟨["G", "w_avg"], [8], 13⟩]
    (by decide) (by decide)
  exact ⟨h.1.trans (by decide), h.2⟩

/-- C6: the EMA sync pairs parameters by name with only the top-level scope
prefix stripped, the FIRST source match wins (`List.find?`), a matched
trainable parameter becomes `lerp(source, target, beta)` and a matched
non-trainable one `lerp(source, target, beta_nontrainable)`, a shape mismatch
on a matched name aborts the whole operation (the failed `assert`), and a
parameter with no match is silently left unchanged. -/
theorem C6_ema_matching (beta beta_nontrainable : ℚ)
    (srcT srcNT tgtT tgtNT : List Param) :
    set_as_moving_average_of beta beta_nontrainable srcT srcNT tgtT tgtNT
      = (do
          let newT ← tgtT.mapM (fun cw =>
            match srcT.find?
                (fun sw => split_first_name sw.name == split_first_name cw.name) with
            | none => some cw
            | some sw =>
                if sw.shape = cw.shape then
                  some { cw with value := lerp sw.value cw.value beta }
                else none)
          let newNT ← tgtNT.mapM (fun cw =>
            match srcNT.find?
                (fun sw => split_first_name sw.name == split_first_name cw.name) with
            | none => some cw
            | some sw =>
                if sw.shape = cw.shape then
                  some { cw with value := lerp sw.value cw.value beta_nontrainable }
                else none)
          return (newT, newNT)) := by
  simp only [set_as_moving_average_of]
  rw [mapM_congr _ _ tgtT (fun cw _ => syncLoop_eq_find beta cw srcT),
    mapM_congr _ _ tgtNT (fun cw _ => syncLoop_eq_find beta_nontrainable cw srcNT)]

/-- C7 counterexample: the resolution list `[4, 9]` does not strictly double,
yet construction succeeds — `Synthesis.__init__` performs no doubling check;
the only construction assertion is `assert res == 4` on the first entry. -/
theorem C7_counterexample :
    ¬ List.Chain' (fun a b => b = 2 * a) [4, 9] ∧
    synthesisInit [4, 9] [512, 512] = some () := by
  constructor
  · simp [List.chain'_cons]
  · rfl

/-- C7 amended: construction fails (via the `assert res == 4` in
`SynthesisConstBlock.__init__`, or an `IndexError` on an empty list) exactly
when the resolutions list does not start with the base resolution 4 or a list
is empty; no doubling check is performed, so construction succeeds for every
list starting at 4 regardless of the subsequent resolutions. -/
theorem C7_amended (resolutions featuremaps : List ℕ) :
    synthesisInit resolutions featuremaps = some ()
      ↔ resolutions.head? = some 4 ∧ featuremaps ≠ [] := by
  cases resolutions with
  | nil => simp [synthesisInit]
  | cons r rs =>
    cases featuremaps with
    | nil => simp [synthesisInit]
    | cons f fs =>
      by_cases h : r = 4 <;>
        simp [synthesisInit, synthesisConstBlockInit, h]

lemma meanSq_nonneg (v : List ℝ) : 0 ≤ meanSq v := by
  apply div_nonneg
  · apply List.sum_nonneg
    intro x hx
    simp only [List.mem_map] at hx
    obtain ⟨y, _, rfl⟩ := hx
    positivity
  · positivity

lemma meanSq_map_mul_right (v : List ℝ) (c : ℝ) :
    meanSq (v.map (fun x => x * c)) = meanSq v * c ^ 2 := by
  simp only [meanSq, List.map_map, List.length_map]
  have hcomp : ((fun x => x ^ 2) ∘ fun x => x * c) = fun x => x ^ 2 * c ^ 2 := by
    funext x
    simp only [Function.comp_apply]
    ring
  rw [hcomp, List.sum_map_mul_right]
  ring

/-- The exact mean square of the normalized vector:
`meanSq(norm v) = m / (m + eps)` with `m = meanSq v` and `eps = 1e-8`. -/
lemma meanSq_norm (v : List ℝ) :
    meanSq (Mapping.norm v) = meanSq v / (meanSq v + 1 / 10 ^ 8) := by
  have hm : 0 ≤ meanSq v := meanSq_nonneg v
  have hpos : (0 : ℝ) < meanSq v + 1 / 10 ^ 8 := by positivity
  rw [Mapping.norm, meanSq_map_mul_right]
  have hsq : (Real.sqrt (meanSq v + 1 / 10 ^ 8))⁻¹ ^ 2
      = (meanSq v + 1 / 10 ^ 8)⁻¹ := by
    rw [inv_pow, Real.sq_sqrt hpos.le]
  rw [hsq]
  exact (div_eq_mul_inv _ _).symm

/-- C8 counterexample: the nonzero embedding `[1e-5]` has, in exact
arithmetic, normalized mean square `1/101` — an RMS below `1/10`, not 1
within any floating tolerance (the claim quantifies over every nonzero
embedding). -/
theorem C8_counterexample :
    ((1 : ℝ)/10^5 ≠ 0) ∧
    meanSq (Mapping.norm [(1 : ℝ)/10^5]) = 1/101 ∧
    ((1 : ℝ)/101 < 1/2) := by
  refine ⟨by norm_num, ?_, by norm_num⟩
  rw [meanSq_norm]
  have hms : meanSq [(1 : ℝ)/10^5] = 1/10^10 := by
    simp [meanSq]
    norm_num
  rw [hms]
  norm_num

/-- C8 amended: the Mapping pipeline normalizes as
`x' = x / sqrt(mean(x^2) + 1e-8)`, so the normalized mean square is exactly
`m / (m + 1e-8)`; for every embedding of at least unit mean square this lies
within `1e-8` of 1 (and is at most 1) — the "RMS is 1 within floating
tolerance" guarantee holds for such embeddings, not for arbitrarily small
nonzero ones. -/
theorem C8_amended (v : List ℝ) (hm : 1 ≤ meanSq v) :
    meanSq (Mapping.norm v) = meanSq v / (meanSq v + 1 / 10 ^ 8) ∧
    1 - 1 / 10 ^ 8 ≤ meanSq (Mapping.norm v) ∧
    meanSq (Mapping.norm v) ≤ 1 := by
  have hpos : (0 : ℝ) < meanSq v + 1 / 10 ^ 8 := by nlinarith
  refine ⟨meanSq_norm v, ?_, ?_⟩
  · rw [meanSq_norm, le_div_iff₀ hpos]
    nlinarith
  · rw [meanSq_norm, div_le_one hpos]
    nlinarith

/-- Witness for C8 (amended) at the unit embedding `[1]`. -/
theorem C8_amended_witness :
    (1 : ℝ) ≤ meanSq [(1 : ℝ)] ∧
    (meanSq (Mapping.norm [(1 : ℝ)])
        = meanSq [(1 : ℝ)] / (meanSq [(1 : ℝ)] + 1 / 10 ^ 8) ∧
      1 - 1 / 10 ^ 8 ≤ meanSq (Mapping.norm [(1 : ℝ)]) ∧
      meanSq (Mapping.norm [(1 : ℝ)]) ≤ 1) := by
  have h1 : (1 : ℝ) ≤ meanSq [(1 : ℝ)] := by simp [meanSq]
  exact ⟨h1, C8_amended [(1 : ℝ)] h1⟩

end StyleGAN2
